import Mathlib

/-!
Verification development for the lighterceptor resource-discovery engine.

The definitions below are a shallow embedding of the recursive
resource-discovery engine (`Lighterceptor.run` and its helper functions):
URL resolution, the skip predicate, the resource cache, the discovery
queue, the resource-kind classifier, and the CSS/JS dependency extractors.

Modelling conventions:
* JavaScript strings are `String`/`List Char`; every scanning primitive is
  re-implemented structurally over `List Char` so that all definitions
  compute by kernel reduction.
* The regex `exec` loops are embedded as explicit left-to-right scans; each
  regular expression of the source is hand-compiled to a matcher that
  reproduces its backtracking behaviour (lazy bodies, optional groups,
  greedy classes tried longest-first, `\b` word boundaries).  The scan
  drivers take a fuel argument; every match consumes at least one
  character, so `length + 1` fuel always suffices.
* External collaborators are abstracted as an environment record: the
  WHATWG URL constructor (`parse`, `none` modelling a thrown TypeError),
  the injected fetch primitive (`fetchFn`), and the JSDOM rendering
  environment (`dom`, returning the harvested element tree and the
  intercepted requests as an event list).
* `Date.now()` timestamps are modelled as the append index of the record;
  the public `run` wrapper applies an external clock to those indices.
* The engine state carries a ghost `fetchLog` listing the URLs for which
  the injected retrieval primitive was actually invoked; the source has no
  such list, it exists only to state the at-most-once-retrieval property.
-/

namespace Lighterceptor

/-! ## Character and string helpers -/

def squote : Char := Char.ofNat 39

def dquote : Char := Char.ofNat 34

def isWsChar (c : Char) : Bool := c.isWhitespace

/-- The characters matched by `.` in a JavaScript regex without the `s`
flag: everything except line terminators. -/
def isDotChar (c : Char) : Bool :=
  !(c = '\n' || c = '\r' || c = Char.ofNat 8232 || c = Char.ofNat 8233)

def isWordChar (c : Char) : Bool := c.isAlphanum || c = '_'

/-- Case-sensitive literal match: returns the rest of the input after the
literal, or `none`. -/
def matchLit : List Char → List Char → Option (List Char)
  | [], s => some s
  | _ :: _, [] => none
  | p :: ps, c :: cs => if c = p then matchLit ps cs else none

/-- Case-insensitive literal match (for the `i`-flagged CSS patterns). -/
def matchCI : List Char → List Char → Option (List Char)
  | [], s => some s
  | _ :: _, [] => none
  | p :: ps, c :: cs => if c.toLower = p.toLower then matchCI ps cs else none

/-- `s.includes(pat)` on character lists. -/
def listContainsSub (s pat : List Char) : Bool :=
  match s with
  | [] => pat.isEmpty
  | _ :: rest => pat.isPrefixOf s || listContainsSub rest pat

def strContainsSub (s pat : String) : Bool := listContainsSub s.data pat.data

def lowerStr (s : String) : String := ⟨s.data.map Char.toLower⟩

def strStartsWith (s pat : String) : Bool := pat.data.isPrefixOf s.data

/-- `value.split(c)` for a one-character separator, JS semantics
(`"".split(c) = [""]`). -/
def splitChar (c : Char) : List Char → List (List Char)
  | [] => [[]]
  | x :: rest =>
    let r := splitChar c rest
    if x = c then [] :: r
    else
      match r with
      | h :: t => (x :: h) :: t
      | [] => [[x]]

/-- `String.prototype.trim` on character lists. -/
def trimChars (l : List Char) : List Char :=
  (((l.dropWhile isWsChar).reverse.dropWhile isWsChar).reverse)

/-! ## Data model -/

inductive ResourceKind
  | html
  | css
  | js
deriving DecidableEq

/-- The discovery-mechanism tag of a request record.  The source union type
is `RequestSource | "unknown"`; the `unknown` constructor models the string
literal `"unknown"`. -/
inductive RequestSource
  | resource
  | img
  | css
  | fetch
  | xhr
  | unknown
deriving DecidableEq

/-- One request-log record; `timestamp` models `Date.now()` as the append
index of the record (the `run` wrapper maps it through an external clock). -/
structure RequestRecord where
  url : String
  source : RequestSource
  timestamp : Nat
deriving DecidableEq

structure ResourceContent where
  text : String
  contentType : Option String
deriving DecidableEq

structure CssDependencies where
  imports : List String
  urls : List String
deriving DecidableEq

structure JsDependencies where
  imports : List String
  importScripts : List String
  fetches : List String
  xhrs : List String
deriving DecidableEq

structure PendingWorkItem where
  url : String
  kind : Option ResourceKind
deriving DecidableEq

/-! ## CSS dependency extraction

Hand-compiled matchers for
`url\(\s*(['"]?)(.*?)\1\s*\)` (flags `gi`) and
`@import\s+(?:url\(\s*)?(['"]?)([^'")\s]+)\1\s*\)?` (flags `gi`).
-/

/-- The closer `\s*\)`: skip whitespace, require a right parenthesis. -/
def closeRparen (s : List Char) : Option (List Char) :=
  match s.dropWhile isWsChar with
  | c :: rest => if c = ')' then some rest else none
  | [] => none

/-- Lazy body of the quoted `url(...)` form: the shortest run of `.`
characters followed by the back-referenced quote, `\s*`, and `)`. -/
def lazyBodyQuoted (q : Char) : List Char → Option (List Char × List Char)
  | [] => none
  | c :: rest =>
    if c = q then
      match closeRparen rest with
      | some after => some ([], after)
      | none =>
        if isDotChar c then
          match lazyBodyQuoted q rest with
          | some (cap, after) => some (c :: cap, after)
          | none => none
        else none
    else
      if isDotChar c then
        match lazyBodyQuoted q rest with
        | some (cap, after) => some (c :: cap, after)
        | none => none
      else none

/-- Lazy body of the unquoted `url(...)` form: the shortest run of `.`
characters followed by `\s*` and `)`. -/
def lazyBodyUnquoted : List Char → Option (List Char × List Char)
  | [] => none
  | c :: rest =>
    match closeRparen (c :: rest) with
    | some after => some ([], after)
    | none =>
      if isDotChar c then
        match lazyBodyUnquoted rest with
        | some (cap, after) => some (c :: cap, after)
        | none => none
      else none

/-- Matcher for one `url\(\s*(['"]?)(.*?)\1\s*\)` occurrence starting at the
current position; on success returns (group 2, rest after the match).  The
optional quote group is tried with the quote first and backtracks to the
empty alternative, as the regex engine does. -/
def cssUrlAt (s : List Char) : Option (List Char × List Char) :=
  match matchCI "url(".data s with
  | none => none
  | some s0 =>
    let s1 := s0.dropWhile isWsChar
    match s1 with
    | c :: s2 =>
      if c = squote || c = dquote then
        match lazyBodyQuoted c s2 with
        | some r => some r
        | none => lazyBodyUnquoted s1
      else lazyBodyUnquoted s1
    | [] => none

/-- The character class `[^'")\s]` of the `@import` pattern. -/
def importClassChar (c : Char) : Bool :=
  !(c = squote || c = dquote || c = ')' || isWsChar c)

/-- The trailing `\s*\)?` of the `@import` pattern (never fails). -/
def tailOptRparen (s : List Char) : List Char :=
  let s1 := s.dropWhile isWsChar
  match s1 with
  | c :: rest => if c = ')' then rest else s1
  | [] => s1

/-- `([^'")\s]+)\s*\)?` with empty quote group. -/
def importBodyNoQuote (s : List Char) : Option (List Char × List Char) :=
  let cap := s.takeWhile importClassChar
  if cap.isEmpty then none
  else some (cap, tailOptRparen (s.drop cap.length))

/-- `(['"]?)([^'")\s]+)\1\s*\)?`: the quoted alternative is tried first and
backtracks to the unquoted one on failure. -/
def importBody (s : List Char) : Option (List Char × List Char) :=
  match s with
  | [] => none
  | c :: rest =>
    if c = squote || c = dquote then
      let cap := rest.takeWhile importClassChar
      if cap.isEmpty then importBodyNoQuote s
      else
        match rest.drop cap.length with
        | d :: rest2 =>
          if d = c then some (cap, tailOptRparen rest2) else importBodyNoQuote s
        | [] => importBodyNoQuote s
    else importBodyNoQuote s

/-- Matcher for one `@import\s+(?:url\(\s*)?(['"]?)([^'")\s]+)\1\s*\)?`
occurrence; the optional `url(` group is tried first and dropped on
failure. -/
def cssImportAt (s : List Char) : Option (List Char × List Char) :=
  match matchCI "@import".data s with
  | none => none
  | some s0 =>
    let m := (s0.takeWhile isWsChar).length
    if m = 0 then none
    else
      let s1 := s0.drop m
      match matchCI "url(".data s1 with
      | some s2 =>
        match importBody (s2.dropWhile isWsChar) with
        | some r => some r
        | none => importBody s1
      | none => importBody s1

/-- The `while ((match = pattern.exec(text)) !== null)` loop: leftmost
match, then continue after it.  Every matcher consumes at least one
character, so `length + 1` fuel always suffices. -/
def scanCssF (matchAt : List Char → Option (List Char × List Char)) :
    Nat → List Char → List (List Char)
  | 0, _ => []
  | _ + 1, [] => []
  | fuel + 1, c :: rest =>
    match matchAt (c :: rest) with
    | some (cap, after) => cap :: scanCssF matchAt fuel after
    | none => scanCssF matchAt fuel rest

/-- `extractCssDependencies` of the source: both scans run over the whole
text; each capture is trimmed and dropped when empty.  Note that the
source pushes into plain arrays, so no de-duplication happens here. -/
def extractCssDependencies (cssText : String) : CssDependencies :=
  let cs := cssText.data
  let urls := (scanCssF cssUrlAt (cs.length + 1) cs).filterMap fun cap =>
    let u := trimChars cap
    if u.length > 0 then some (String.mk u) else none
  let imports := (scanCssF cssImportAt (cs.length + 1) cs).filterMap fun cap =>
    let u := trimChars cap
    if u.length > 0 then some (String.mk u) else none
  ⟨imports, urls⟩

/-! ## JS dependency extraction

Hand-compiled matchers for the five `g`-flagged script patterns:
`\bimport\s+(?:[^'"]+from\s+)?['"]([^'"]+)['"]`,
`\bimport\(\s*['"]([^'"]+)['"]\s*\)`,
`\bimportScripts\(\s*['"]([^'"]+)['"]\s*\)`,
`\bfetch\(\s*['"]([^'"]+)['"]`,
`\.open\(\s*['"][^'"]+['"]\s*,\s*['"]([^'"]+)['"]`.
-/

def isQuoteChar (c : Char) : Bool := c = squote || c = dquote

/-- `['"]([^'"]+)['"]`: an opening quote, a nonempty run of non-quote
characters (the capture), and a closing quote of either kind. -/
def quoteCap (s : List Char) : Option (List Char × List Char) :=
  match s with
  | [] => none
  | q :: rest =>
    if isQuoteChar q then
      let cap := rest.takeWhile fun c => !isQuoteChar c
      if cap.isEmpty then none
      else
        match rest.drop cap.length with
        | q2 :: after => if isQuoteChar q2 then some (cap, after) else none
        | [] => none
    else none

/-- `\s*` then `quoteCap`, then (when `needRparen`) `\s*\)`. -/
def parenArg (s : List Char) (needRparen : Bool) : Option (List Char × List Char) :=
  match quoteCap (s.dropWhile isWsChar) with
  | none => none
  | some (cap, after) =>
    if needRparen then
      match after.dropWhile isWsChar with
      | c :: rest => if c = ')' then some (cap, rest) else none
      | [] => none
    else some (cap, after)

/-- The present alternative of `(?:[^'"]+from\s+)?` followed by the quote
part, with the greedy class `[^'"]+` tried longest-first: `j` bounds the
class length still to try. -/
def importFromSplitAux (r : List Char) : Nat → Option (List Char × List Char)
  | 0 => none
  | j + 1 =>
    match
      (if "from".data.isPrefixOf (r.drop (j + 1)) then
        let t := r.drop (j + 1 + 4)
        let w := (t.takeWhile isWsChar).length
        if w = 0 then none else quoteCap (t.drop w)
      else none) with
    | some res => some res
    | none => importFromSplitAux r j

def importFromSplit (r : List Char) : Option (List Char × List Char) :=
  importFromSplitAux r (r.takeWhile fun c => !isQuoteChar c).length

/-- After the literal `import`, the `\s+` run is tried longest-first; at
each split the `[^'"]+from\s+` alternative is tried before the bare quoted
argument, mirroring the regex engine's backtracking order. -/
def jsImportArg (t : List Char) : Nat → Option (List Char × List Char)
  | 0 => none
  | k + 1 =>
    let r := t.drop (k + 1)
    match importFromSplit r with
    | some res => some res
    | none =>
      match quoteCap r with
      | some res => some res
      | none => jsImportArg t k

def jsStaticImportAt (prevW : Bool) (s : List Char) : Option (List Char × List Char) :=
  if prevW then none
  else
    match matchLit "import".data s with
    | none => none
    | some t => jsImportArg t (t.takeWhile isWsChar).length

def jsDynImportAt (prevW : Bool) (s : List Char) : Option (List Char × List Char) :=
  if prevW then none
  else
    match matchLit "import(".data s with
    | none => none
    | some t => parenArg t true

def jsImportScriptsAt (prevW : Bool) (s : List Char) : Option (List Char × List Char) :=
  if prevW then none
  else
    match matchLit "importScripts(".data s with
    | none => none
    | some t => parenArg t true

def jsFetchAt (prevW : Bool) (s : List Char) : Option (List Char × List Char) :=
  if prevW then none
  else
    match matchLit "fetch(".data s with
    | none => none
    | some t => parenArg t false

def xhrOpenAt (s : List Char) : Option (List Char × List Char) :=
  match matchLit ".open(".data s with
  | none => none
  | some t =>
    match quoteCap (t.dropWhile isWsChar) with
    | none => none
    | some (_, a1) =>
      match a1.dropWhile isWsChar with
      | c :: a2 =>
        if c = ',' then
          match quoteCap (a2.dropWhile isWsChar) with
          | some (cap, after) => some (cap, after)
          | none => none
        else none
      | [] => none

/-- Scan driver threading the `\b` context (whether the previous character
is a word character).  Every JS match ends in a quote or a parenthesis, so
the context after a match is `false`. -/
def scanJsF (matchAt : Bool → List Char → Option (List Char × List Char)) :
    Nat → Bool → List Char → List (List Char)
  | 0, _, _ => []
  | _ + 1, _, [] => []
  | fuel + 1, prevW, c :: rest =>
    match matchAt prevW (c :: rest) with
    | some (cap, after) => cap :: scanJsF matchAt fuel false after
    | none => scanJsF matchAt fuel (isWordChar c) rest

/-- `Set.prototype.add`: append when absent (JS `Set` keeps insertion
order, so spreading it yields first-occurrence order). -/
def addUnique (acc : List String) (x : String) : List String :=
  if x ∈ acc then acc else acc ++ [x]

def dedupFirst (l : List String) : List String := l.foldl addUnique []

/-- `extractJsDependencies` of the source: five independent scans
accumulated into per-category insertion-ordered sets. -/
def extractJsDependencies (jsText : String) : JsDependencies :=
  let cs := jsText.data
  let f := cs.length + 1
  let staticImports := scanJsF jsStaticImportAt f false cs
  let dynImports := scanJsF jsDynImportAt f false cs
  let importScriptsRaw := scanJsF jsImportScriptsAt f false cs
  let fetchesRaw := scanJsF jsFetchAt f false cs
  let xhrsRaw := scanJsF (fun _ s => xhrOpenAt s) f false cs
  { imports := dedupFirst ((staticImports ++ dynImports).map String.mk)
    importScripts := dedupFirst (importScriptsRaw.map String.mk)
    fetches := dedupFirst (fetchesRaw.map String.mk)
    xhrs := dedupFirst (xhrsRaw.map String.mk) }

/-! ## Resource-kind classification -/

/-- `inferResourceKindFromUrl`: strip query and fragment, take the last
dot-separated segment, lowercase it, and map known extensions. -/
def inferResourceKindFromUrl (url : String) : Option ResourceKind :=
  let cleanUrl := ((splitChar '#' ((splitChar '?' url.data).headD [])).headD [])
  let extension := ((splitChar '.' cleanUrl).getLastD []).map Char.toLower
  if extension = [] then none
  else if extension = "html".data || extension = "htm".data then some .html
  else if extension = "css".data then some .css
  else if extension = "js".data || extension = "mjs".data || extension = "cjs".data then
    some .js
  else none

def wordAt : List Char → Bool
  | [] => false
  | c :: _ => isWordChar c

/-- `\bw\b` at the current position (the boundary before is checked by the
driver). -/
def wordTokenCheck (w : List Char) (s : List Char) : Bool :=
  w.isPrefixOf s && !wordAt (s.drop w.length)

/-- `\bw\s*\(` at the current position. -/
def callCheck (w : List Char) (s : List Char) : Bool :=
  w.isPrefixOf s &&
    (match (s.drop w.length).dropWhile isWsChar with
      | c :: _ => c = '('
      | [] => false)

/-- Existence-only scan for the `test`ed patterns of
`looksLikeJavaScript`, threading the `\b` context. -/
def hasJsNeedle (check : List Char → Bool) : Bool → List Char → Bool
  | _, [] => false
  | prevW, c :: rest =>
    (!prevW && check (c :: rest)) || hasJsNeedle check (isWordChar c) rest

def looksLikeJavaScript (text : List Char) : Bool :=
  hasJsNeedle (fun s => wordTokenCheck "import".data s || wordTokenCheck "export".data s)
      false text ||
  hasJsNeedle
      (fun s => wordTokenCheck "const".data s || wordTokenCheck "let".data s ||
        wordTokenCheck "var".data s || wordTokenCheck "function".data s)
      false text ||
  hasJsNeedle (callCheck "fetch".data) false text ||
  hasJsNeedle (wordTokenCheck "XMLHttpRequest".data) false text ||
  hasJsNeedle (callCheck "importScripts".data) false text

/-- `detectResourceKind`: content-type substring, then URL extension, then
body sniffing, first match wins. -/
def detectResourceKind (url : String) (contentType : Option String) (text : String) :
    Option ResourceKind :=
  let normalized := (contentType.getD "").data.map Char.toLower
  if listContainsSub normalized "text/html".data then some .html
  else if listContainsSub normalized "text/css".data then some .css
  else if listContainsSub normalized "javascript".data then some .js
  else
    match inferResourceKindFromUrl url with
    | some inferred => some inferred
    | none =>
      let trimmed := text.data.dropWhile isWsChar
      if "<!doctype".data.isPrefixOf trimmed || "<html".data.isPrefixOf trimmed then
        some .html
      else if "<".data.isPrefixOf trimmed then some .html
      else if "@".data.isPrefixOf trimmed || listContainsSub trimmed "url(".data then
        some .css
      else if looksLikeJavaScript trimmed then some .js
      else none

/-- Top-level input classification (`detectInputKind`). -/
def detectInputKind (input : String) : ResourceKind :=
  let trimmed := input.data.dropWhile isWsChar
  if "<".data.isPrefixOf trimmed then .html
  else if "@".data.isPrefixOf trimmed || listContainsSub trimmed "url(".data then .css
  else .js

/-- `isSkippableUrl`: `data:`, `javascript:` and `about:` schemes,
case-insensitively. -/
def isSkippableUrl (url : String) : Bool :=
  let lowered := url.data.map Char.toLower
  "data:".data.isPrefixOf lowered || "javascript:".data.isPrefixOf lowered ||
    "about:".data.isPrefixOf lowered

/-- `parseSrcsetUrls`: split on commas, trim each candidate, take its first
whitespace-delimited token, drop empties. -/
def parseSrcsetUrls (value : String) : List String :=
  ((splitChar ',' value.data).map fun cand =>
      String.mk ((trimChars cand).takeWhile fun c => !isWsChar c)).filter
    fun url => url.length > 0

/-- `shouldInterceptLinkRel`. -/
def shouldInterceptLinkRel (rel : String) : Bool :=
  let normalized := lowerStr rel
  strContainsSub normalized "preload" || strContainsSub normalized "prefetch" ||
    strContainsSub normalized "stylesheet" || strContainsSub normalized "icon"

/-- The initiating element passed to the interception callback, abstracted
to its tag name and the two attributes `inferKindFromElement` reads
(`getAttribute(x) ?? ""` collapsed to a plain string). -/
structure ElementInfo where
  tagName : String
  rel : String
  asAttr : String
deriving DecidableEq

/-- `inferKindFromElement` (a `none` element models a missing or
non-object `element`). -/
def inferKindFromElement (element : Option ElementInfo) : Option ResourceKind :=
  match element with
  | none => none
  | some el =>
    let tagName := lowerStr el.tagName
    if tagName = "script" then some .js
    else if tagName = "iframe" then some .html
    else if tagName = "link" then
      let rel := lowerStr el.rel
      let asValue := lowerStr el.asAttr
      if strContainsSub rel "stylesheet" then some .css
      else if strContainsSub rel "preload" || strContainsSub rel "prefetch" then
        if asValue = "style" then some .css
        else if asValue = "script" then some .js
        else none
      else none
    else none

/-! ## The engine

The engine's external collaborators are gathered in `EngineEnv`:
`parse` abstracts the WHATWG `new URL(ref, base?)` constructor (`none`
models a thrown `TypeError`), `fetchFn` the injected global fetch
primitive, and `dom` the JSDOM rendering environment, which for a given
markup text and base URL yields the harvested element tree and the
intercepted requests as one ordered event list plus the document title.
-/

/-- Outcome of one invocation of the injected fetch primitive. -/
inductive FetchOutcome
  | noFetch
  | netError
  | response (ok : Bool) (text : String) (contentType : Option String)
deriving DecidableEq

/-- One observable fact about the rendered document: either an intercepted
request (url, referrer, source tag, initiating element) or one
resource-bearing construct found by the harvest queries of `analyzeHtml`. -/
inductive DomEvent
  | intercept (url : String) (referrer : Option String) (source : Option RequestSource)
      (element : Option ElementInfo)
  | imgSrc (src : String)
  | imgSrcset (srcset : String)
  | sourceSrc (src : String)
  | sourceSrcset (srcset : String)
  | scriptSrc (src : String)
  | iframeSrc (src : String)
  | mediaSrc (src : String)
  | videoPoster (poster : String)
  | trackSrc (src : String)
  | embedSrc (src : String)
  | objectData (data : String)
  | styleAttr (cssText : String)
  | styleTag (cssText : String)
  | linkTag (rel : String) (hrefAttr : Option String) (hrefProp : String)
      (imagesrcset : String)
deriving DecidableEq

structure DomSnapshot where
  events : List DomEvent
  title : String
deriving DecidableEq

structure EngineEnv where
  parse : Option String → String → Option String
  fetchFn : String → FetchOutcome
  dom : String → Option String → DomSnapshot

/-- The per-run mutable state of `Lighterceptor.run`: the request log, the
pending queue, the processed set, and the resource cache (holding the
settled value of each memoized promise).  `fetchLog` is ghost state
recording each invocation of the injected retrieval primitive. -/
structure EngineState where
  requests : List RequestRecord
  pending : List PendingWorkItem
  processed : List String
  cache : List (String × Option ResourceContent)
  fetchLog : List String
deriving DecidableEq

def initState : EngineState := ⟨[], [], [], [], []⟩

structure LighterceptorOptions where
  settleTimeMs : Option Nat
  recursion : Option Bool
deriving DecidableEq

structure LighterceptorResult where
  title : Option String
  capturedAt : String
  requests : List RequestRecord
deriving DecidableEq

/-- `resolveUrl`: absent exactly for the empty reference; otherwise the
parsed URL, falling back to the raw reference when the URL constructor
throws.  A present-but-empty base is falsy in the source's `if (baseUrl)`
test and is treated like an absent base. -/
def resolveUrl (env : EngineEnv) (baseUrl : Option String) (url : String) : Option String :=
  if url = "" then none
  else
    match baseUrl with
    | some b =>
      if b = "" then some ((env.parse none url).getD url)
      else some ((env.parse (some b) url).getD url)
    | none => some ((env.parse none url).getD url)

/-- `recordUrl`: resolve, drop the record when resolution is absent,
otherwise append it with the next timestamp index. -/
def recordUrl (env : EngineEnv) (st : EngineState) (url : String) (source : RequestSource)
    (baseUrl : Option String) : EngineState :=
  match resolveUrl env baseUrl url with
  | none => st
  | some resolved =>
    { st with requests := st.requests ++ [⟨resolved, source, st.requests.length⟩] }

/-- `enqueue`: a no-op when recursion is disabled, the URL is skippable, or
the URL was already processed; otherwise the URL is marked processed and
the work item appended, in one step. -/
def enqueue (recursive : Bool) (st : EngineState) (url : String)
    (kind : Option ResourceKind) : EngineState :=
  if !recursive || isSkippableUrl url then st
  else if url ∈ st.processed then st
  else
    { st with
      processed := url :: st.processed
      pending := st.pending ++ [⟨url, kind⟩] }

/-- `recordCssUrls`: record and (for `@import` targets) enqueue every CSS
dependency. -/
def recordCssUrls (env : EngineEnv) (recursive : Bool) (st : EngineState)
    (cssText : String) (baseUrl : Option String) : EngineState :=
  let deps := extractCssDependencies cssText
  let st := deps.imports.foldl
    (fun st url =>
      match resolveUrl env baseUrl url with
      | none => st
      | some resolved =>
        enqueue recursive (recordUrl env st resolved .css none) resolved (some .css))
    st
  deps.urls.foldl
    (fun st url =>
      match resolveUrl env baseUrl url with
      | none => st
      | some resolved => recordUrl env st resolved .css none)
    st

/-- `analyzeJs`: record and enqueue each extracted script dependency, per
category. -/
def analyzeJs (env : EngineEnv) (recursive : Bool) (st : EngineState) (jsText : String)
    (baseUrl : Option String) : EngineState :=
  let deps := extractJsDependencies jsText
  let st := deps.imports.foldl
    (fun st url =>
      match resolveUrl env baseUrl url with
      | none => st
      | some resolved =>
        enqueue recursive (recordUrl env st resolved .resource none) resolved
          (some ((inferResourceKindFromUrl resolved).getD .js)))
    st
  let st := deps.importScripts.foldl
    (fun st url =>
      match resolveUrl env baseUrl url with
      | none => st
      | some resolved =>
        enqueue recursive (recordUrl env st resolved .resource none) resolved (some .js))
    st
  let st := deps.fetches.foldl
    (fun st url =>
      match resolveUrl env baseUrl url with
      | none => st
      | some resolved =>
        enqueue recursive (recordUrl env st resolved .fetch none) resolved
          (inferResourceKindFromUrl resolved))
    st
  deps.xhrs.foldl
    (fun st url =>
      match resolveUrl env baseUrl url with
      | none => st
      | some resolved =>
        enqueue recursive (recordUrl env st resolved .xhr none) resolved
          (inferResourceKindFromUrl resolved))
    st

/-- Handler for one `DomEvent`, embedding the interception callback and the
per-element harvest bodies of `analyzeHtml`. -/
def processDomEvent (env : EngineEnv) (recursive : Bool) (baseUrl : Option String)
    (st : EngineState) : DomEvent → EngineState
  | .intercept url referrer source element =>
    match resolveUrl env referrer url with
    | none => st
    | some resolved =>
      let src := source.getD .unknown
      let st := recordUrl env st resolved src none
      if recursive then
        if src = .fetch || src = .xhr then
          enqueue recursive st resolved (inferResourceKindFromUrl resolved)
        else if src = .resource then
          match inferKindFromElement element with
          | some kind => enqueue recursive st resolved (some kind)
          | none => st
        else st
      else st
  | .imgSrc src => if src = "" then st else recordUrl env st src .img none
  | .imgSrcset srcset =>
    if srcset = "" then st
    else (parseSrcsetUrls srcset).foldl (fun s u => recordUrl env s u .img baseUrl) st
  | .sourceSrc src => if src = "" then st else recordUrl env st src .resource baseUrl
  | .sourceSrcset srcset =>
    if srcset = "" then st
    else (parseSrcsetUrls srcset).foldl (fun s u => recordUrl env s u .resource baseUrl) st
  | .scriptSrc src =>
    if src = "" then st
    else enqueue recursive (recordUrl env st src .resource none) src (some .js)
  | .iframeSrc src =>
    if src = "" then st
    else enqueue recursive (recordUrl env st src .resource none) src (some .html)
  | .mediaSrc src => if src = "" then st else recordUrl env st src .resource baseUrl
  | .videoPoster poster =>
    if poster = "" then st else recordUrl env st poster .resource baseUrl
  | .trackSrc src => if src = "" then st else recordUrl env st src .resource baseUrl
  | .embedSrc src => if src = "" then st else recordUrl env st src .resource baseUrl
  | .objectData data => if data = "" then st else recordUrl env st data .resource baseUrl
  | .styleAttr cssText =>
    if cssText = "" then st else recordCssUrls env recursive st cssText baseUrl
  | .styleTag cssText =>
    if cssText = "" then st else recordCssUrls env recursive st cssText baseUrl
  | .linkTag rel hrefAttr hrefProp imagesrcset =>
    let st1 :=
      if shouldInterceptLinkRel rel then
        let href := hrefAttr.getD hrefProp
        if href = "" then st
        else
          let resolvedHref := (resolveUrl env baseUrl href).getD href
          let st := recordUrl env st resolvedHref .resource none
          if strContainsSub (lowerStr rel) "stylesheet" then
            enqueue recursive st resolvedHref (some .css)
          else if strContainsSub (lowerStr rel) "preload" then
            match inferResourceKindFromUrl resolvedHref with
            | some kind => enqueue recursive st resolvedHref (some kind)
            | none => st
          else st
      else st
    if strContainsSub (lowerStr rel) "preload" then
      if imagesrcset = "" then st1
      else (parseSrcsetUrls imagesrcset).foldl (fun s u => recordUrl env s u .resource baseUrl) st1
    else st1

/-- `analyzeHtml`: drive the rendering environment and fold its event
stream through the harvest handlers; return the document title when
requested (empty title is falsy). -/
def analyzeHtml (env : EngineEnv) (recursive : Bool) (st : EngineState) (htmlText : String)
    (baseUrl : Option String) (captureTitle : Bool) : Option String × EngineState :=
  let snap := env.dom htmlText baseUrl
  let st := snap.events.foldl (fun s e => processDomEvent env recursive baseUrl s e) st
  (if captureTitle then (if snap.title = "" then none else some snap.title) else none, st)

/-- `fetchResourceContent`: absent when the fetch primitive is unavailable,
the request throws, or the response is not ok. -/
def fetchResourceContent (env : EngineEnv) (url : String) : Option ResourceContent :=
  match env.fetchFn url with
  | .noFetch => none
  | .netError => none
  | .response ok text contentType => if ok then some ⟨text, contentType⟩ else none

/-- Lookup in the resource cache (a `Map` keyed by URL; entries are only
ever inserted for absent keys, so first-match association suffices). -/
def lookupCache : List (String × Option ResourceContent) → String →
    Option (Option ResourceContent)
  | [], _ => none
  | (k, v) :: rest, url => if k = url then some v else lookupCache rest url

/-- `loadResource`: return the memoized outcome when present; otherwise
invoke the retrieval primitive, cache its outcome (present or absent)
under the URL, and log the invocation in the ghost `fetchLog`. -/
def loadResource (env : EngineEnv) (st : EngineState) (url : String) :
    Option ResourceContent × EngineState :=
  match lookupCache st.cache url with
  | some existing => (existing, st)
  | none =>
    let loader := fetchResourceContent env url
    (loader,
      { st with
        cache := (url, loader) :: st.cache
        fetchLog := st.fetchLog ++ [url] })

/-- The body of one `processPending` iteration, applied to the state after
the head item has been shifted off the queue: load the resource, skip if
absent, classify (the hint wins over inference), and dispatch to the
matching analyzer. -/
def expandItem (env : EngineEnv) (recursive : Bool) (st : EngineState)
    (item : PendingWorkItem) : EngineState :=
  match loadResource env st item.url with
  | (none, st) => st
  | (some result, st) =>
    match
      (match item.kind with
        | some k => some k
        | none => detectResourceKind item.url result.contentType result.text) with
    | none => st
    | some .html => (analyzeHtml env recursive st result.text (some item.url) false).2
    | some .css => recordCssUrls env recursive st result.text (some item.url)
    | some .js => analyzeJs env recursive st result.text (some item.url)

/-- The `while (pending.length > 0)` drain loop, popping the head (FIFO)
each iteration.  The fuel argument makes the loop a total function; the
termination theorem shows the measure `measureD` bounds the number of
iterations, so enough fuel always exists.  The boolean reports whether the
queue actually drained within the given fuel. -/
def processPending (env : EngineEnv) (recursive : Bool) :
    Nat → EngineState → EngineState × Bool
  | 0, st => (st, decide (st.pending = []))
  | fuel + 1, st =>
    match st.pending with
    | [] => (st, true)
    | item :: rest =>
      processPending env recursive fuel
        (expandItem env recursive { st with pending := rest } item)

/-- Instrumented variant of `processPending` that also returns the list of
popped URLs in pop order; its state and flag agree with `processPending`. -/
def processPendingT (env : EngineEnv) (recursive : Bool) :
    Nat → EngineState → EngineState × Bool × List String
  | 0, st => (st, decide (st.pending = []), [])
  | fuel + 1, st =>
    match st.pending with
    | [] => (st, true, [])
    | item :: rest =>
      let r := processPendingT env recursive fuel
        (expandItem env recursive { st with pending := rest } item)
      (r.1, r.2.1, item.url :: r.2.2)

/-- `Lighterceptor.run` up to external I/O: classify the input, run the
matching first analysis pass, then drain the queue.  Returns the title,
the final state, and whether the drain completed within the fuel. -/
def runCore (env : EngineEnv) (opts : LighterceptorOptions) (input : String)
    (fuel : Nat) : Option String × EngineState × Bool :=
  let recursive := opts.recursion.getD false
  match detectInputKind input with
  | .html =>
    let r := analyzeHtml env recursive initState input none true
    let d := processPending env recursive fuel r.2
    (r.1, d.1, d.2)
  | .css =>
    let st := recordCssUrls env recursive initState input none
    let d := processPending env recursive fuel st
    (none, d.1, d.2)
  | .js =>
    let st := analyzeJs env recursive initState input none
    let d := processPending env recursive fuel st
    (none, d.1, d.2)

/-- The public `run`: build the result record, stamping each request with
the external clock applied to its append index (`Date.now()` modelled as a
map from append index to wall time) and the externally supplied
`capturedAt` string. -/
def run (env : EngineEnv) (opts : LighterceptorOptions) (input : String) (fuel : Nat)
    (capturedAt : String) (clock : Nat → Nat) : LighterceptorResult × Bool :=
  let r := runCore env opts input fuel
  ({ title := r.1
     capturedAt := capturedAt
     requests := r.2.1.requests.map fun rec => { rec with timestamp := clock rec.timestamp } },
    r.2.2)

/-! ## Basic component lemmas -/

def pendingUrls (st : EngineState) : List String := st.pending.map PendingWorkItem.url

/-- Termination measure for the drain loop relative to a finite URL
universe `U`: queue length plus the number of universe URLs not yet
processed. -/
def measureD (U : List String) (st : EngineState) : Nat :=
  st.pending.length + (U.filter fun u => !decide (u ∈ st.processed)).length

theorem enqueue_requests (r : Bool) (st : EngineState) (u : String)
    (k : Option ResourceKind) : (enqueue r st u k).requests = st.requests := by
  unfold enqueue
  split
  · rfl
  · split <;> rfl

theorem enqueue_cache (r : Bool) (st : EngineState) (u : String)
    (k : Option ResourceKind) :
    (enqueue r st u k).cache = st.cache ∧ (enqueue r st u k).fetchLog = st.fetchLog := by
  unfold enqueue
  split
  · exact ⟨rfl, rfl⟩
  · split <;> exact ⟨rfl, rfl⟩

theorem enqueue_processed_mono (r : Bool) (st : EngineState) (u : String)
    (k : Option ResourceKind) {x : String} (hx : x ∈ st.processed) :
    x ∈ (enqueue r st u k).processed := by
  unfold enqueue
  split
  · exact hx
  · split
    · exact hx
    · exact List.mem_cons_of_mem _ hx

theorem enqueue_of_mem (r : Bool) (st : EngineState) (u : String)
    (k : Option ResourceKind) (h : u ∈ st.processed) : enqueue r st u k = st := by
  simp [enqueue, h]

theorem enqueue_false (st : EngineState) (u : String) (k : Option ResourceKind) :
    enqueue false st u k = st := by
  unfold enqueue
  rw [if_pos]
  rfl

theorem enqueue_fires (st : EngineState) (u : String) (k : Option ResourceKind)
    (hskip : isSkippableUrl u = false) (hmem : u ∉ st.processed) :
    enqueue true st u k =
      { st with processed := u :: st.processed, pending := st.pending ++ [⟨u, k⟩] } := by
  unfold enqueue
  rw [if_neg, if_neg hmem]
  simp [hskip]

theorem loadResource_pending (env : EngineEnv) (st : EngineState) (u : String) :
    (loadResource env st u).2.pending = st.pending ∧
      (loadResource env st u).2.processed = st.processed ∧
      (loadResource env st u).2.requests = st.requests := by
  unfold loadResource
  split <;> exact ⟨rfl, rfl, rfl⟩

theorem recordUrl_evol (env : EngineEnv) (st : EngineState) (u : String)
    (src : RequestSource) (b : Option String) :
    (recordUrl env st u src b).pending = st.pending ∧
      (recordUrl env st u src b).processed = st.processed ∧
      (recordUrl env st u src b).cache = st.cache ∧
      (recordUrl env st u src b).fetchLog = st.fetchLog ∧
      ∃ l, (recordUrl env st u src b).requests = st.requests ++ l := by
  unfold recordUrl
  split
  · exact ⟨rfl, rfl, rfl, rfl, [], by simp⟩
  · exact ⟨rfl, rfl, rfl, rfl, _, rfl⟩

/-! ## The evolution relation

`Evol env recursive s t` says `t` arises from `s` by a sequence of the
three primitive state effects of the engine: appending request records,
calling `enqueue`, and calling `loadResource`.  Every analyzer is closed
under it, and all the queue/log/cache invariants are proved once, by
induction over it. -/

inductive Evol (env : EngineEnv) (recursive : Bool) : EngineState → EngineState → Prop
  | refl (s : EngineState) : Evol env recursive s s
  | rcd {s t : EngineState} (l : List RequestRecord) : Evol env recursive s t →
      Evol env recursive s { t with requests := t.requests ++ l }
  | enq {s t : EngineState} (u : String) (k : Option ResourceKind) :
      Evol env recursive s t → Evol env recursive s (enqueue recursive t u k)
  | load {s t : EngineState} (u : String) : Evol env recursive s t →
      Evol env recursive s (loadResource env t u).2

theorem Evol.trans {env : EngineEnv} {r : Bool} {s t v : EngineState}
    (h1 : Evol env r s t) (h2 : Evol env r t v) : Evol env r s v := by
  induction h2 with
  | refl => exact h1
  | rcd l _ ih => exact Evol.rcd l ih
  | enq u k _ ih => exact Evol.enq u k ih
  | load u _ ih => exact Evol.load u ih

theorem evol_recordUrl (env : EngineEnv) (r : Bool) (st : EngineState) (u : String)
    (src : RequestSource) (b : Option String) :
    Evol env r st (recordUrl env st u src b) := by
  unfold recordUrl
  split
  · exact Evol.refl st
  · exact Evol.rcd _ (Evol.refl st)

theorem evol_enqueue (env : EngineEnv) (r : Bool) (st : EngineState) (u : String)
    (k : Option ResourceKind) : Evol env r st (enqueue r st u k) :=
  Evol.enq u k (Evol.refl st)

theorem evol_loadResource (env : EngineEnv) (r : Bool) (st : EngineState) (u : String) :
    Evol env r st (loadResource env st u).2 :=
  Evol.load u (Evol.refl st)

theorem evol_foldl {α : Type} (env : EngineEnv) (r : Bool)
    (f : EngineState → α → EngineState) (hf : ∀ s x, Evol env r s (f s x)) :
    ∀ (l : List α) (st : EngineState), Evol env r st (l.foldl f st) := by
  intro l
  induction l with
  | nil => exact fun st => Evol.refl st
  | cons x xs ih => exact fun st => Evol.trans (hf st x) (ih (f st x))

theorem evol_recordCssUrls (env : EngineEnv) (r : Bool) (st : EngineState)
    (cssText : String) (b : Option String) :
    Evol env r st (recordCssUrls env r st cssText b) := by
  unfold recordCssUrls
  refine Evol.trans (evol_foldl env r _ (fun s x => ?_) _ _) (evol_foldl env r _ (fun s x => ?_) _ _)
  · cases h : resolveUrl env b x with
    | none => simpa [h] using Evol.refl s
    | some resolved =>
      simp only [h]
      exact Evol.trans (evol_recordUrl env r s resolved .css none) (evol_enqueue env r _ resolved _)
  · cases h : resolveUrl env b x with
    | none => simpa [h] using Evol.refl s
    | some resolved =>
      simp only [h]
      exact evol_recordUrl env r s resolved .css none

theorem evol_analyzeJs (env : EngineEnv) (r : Bool) (st : EngineState)
    (jsText : String) (b : Option String) :
    Evol env r st (analyzeJs env r st jsText b) := by
  unfold analyzeJs
  refine Evol.trans (evol_foldl env r _ (fun s x => ?_) _ _)
    (Evol.trans (evol_foldl env r _ (fun s x => ?_) _ _)
      (Evol.trans (evol_foldl env r _ (fun s x => ?_) _ _)
        (evol_foldl env r _ (fun s x => ?_) _ _))) <;>
  · cases h : resolveUrl env b x with
    | none => simpa [h] using Evol.refl s
    | some resolved =>
      simp only [h]
      exact Evol.trans (evol_recordUrl env r s resolved _ none) (evol_enqueue env r _ resolved _)

theorem evol_processDomEvent (env : EngineEnv) (r : Bool) (b : Option String)
    (st : EngineState) (e : DomEvent) : Evol env r st (processDomEvent env r b st e) := by
  cases e <;> simp only [processDomEvent]
  case intercept url referrer source element =>
    cases h : resolveUrl env referrer url <;> simp only [h]
    · exact Evol.refl st
    · repeat' split
      all_goals
        first
        | exact evol_recordUrl env r st _ _ _
        | exact Evol.trans (evol_recordUrl env r st _ _ _) (evol_enqueue env r _ _ _)
  all_goals
    repeat' split
  all_goals
    first
    | exact Evol.refl st
    | exact evol_recordUrl env r st _ _ _
    | exact evol_recordCssUrls env r st _ _
    | exact Evol.trans (evol_recordUrl env r st _ _ _) (evol_enqueue env r _ _ _)
    | exact evol_foldl env r _ (fun s u => evol_recordUrl env r s u _ _) _ st
    | exact Evol.trans (evol_recordUrl env r st _ _ _)
        (evol_foldl env r _ (fun s u => evol_recordUrl env r s u _ _) _ _)
    | exact Evol.trans (Evol.trans (evol_recordUrl env r st _ _ _) (evol_enqueue env r _ _ _))
        (evol_foldl env r _ (fun s u => evol_recordUrl env r s u _ _) _ _)

theorem evol_analyzeHtml (env : EngineEnv) (r : Bool) (st : EngineState)
    (htmlText : String) (b : Option String) (capture : Bool) :
    Evol env r st (analyzeHtml env r st htmlText b capture).2 := by
  unfold analyzeHtml
  exact evol_foldl env r _ (fun s e => evol_processDomEvent env r b s e) _ st

theorem evol_expandItem (env : EngineEnv) (r : Bool) (st : EngineState)
    (item : PendingWorkItem) : Evol env r st (expandItem env r st item) := by
  have hload := evol_loadResource env r st item.url
  simp only [expandItem]
  cases h : loadResource env st item.url with
  | mk content st2 =>
    rw [h] at hload
    cases content with
    | none => exact hload
    | some result =>
      simp only []
      split
      all_goals
        first
        | exact hload
        | exact Evol.trans hload (evol_analyzeHtml env r st2 result.text (some item.url) false)
        | exact Evol.trans hload (evol_recordCssUrls env r st2 result.text (some item.url))
        | exact Evol.trans hload (evol_analyzeJs env r st2 result.text (some item.url))

/-! ## Invariants derived from the evolution relation -/

theorem enqueue_cases (r : Bool) (t : EngineState) (u : String) (k : Option ResourceKind) :
    enqueue r t u k = t ∨
      (u ∉ t.processed ∧
        enqueue r t u k =
          { t with processed := u :: t.processed, pending := t.pending ++ [⟨u, k⟩] }) := by
  unfold enqueue
  split
  · exact Or.inl rfl
  · split
    · exact Or.inl rfl
    · next h => exact Or.inr ⟨h, rfl⟩

theorem evol_processed_mono {env : EngineEnv} {r : Bool} {s t : EngineState}
    (h : Evol env r s t) : ∀ x ∈ s.processed, x ∈ t.processed := by
  induction h with
  | refl => exact fun x hx => hx
  | rcd l _ ih => exact ih
  | enq u k _ ih => exact fun x hx => enqueue_processed_mono _ _ u k (ih x hx)
  | load u _ ih =>
    intro x hx
    rw [(loadResource_pending _ _ u).2.1]
    exact ih x hx

theorem evol_requests_ext {env : EngineEnv} {r : Bool} {s t : EngineState}
    (h : Evol env r s t) : ∃ l, t.requests = s.requests ++ l := by
  induction h with
  | refl => exact ⟨[], by simp⟩
  | rcd l _ ih =>
    obtain ⟨l0, hl0⟩ := ih
    exact ⟨l0 ++ l, by simp [hl0]⟩
  | enq u k _ ih =>
    obtain ⟨l0, hl0⟩ := ih
    exact ⟨l0, by rw [enqueue_requests, hl0]⟩
  | load u _ ih =>
    obtain ⟨l0, hl0⟩ := ih
    exact ⟨l0, by rw [(loadResource_pending _ _ u).2.2, hl0]⟩

theorem evol_cache_keys {env : EngineEnv} {r : Bool} {s t : EngineState}
    (h : Evol env r s t) : ∀ x, (lookupCache s.cache x).isSome → (lookupCache t.cache x).isSome := by
  induction h with
  | refl => exact fun x hx => hx
  | rcd l _ ih => exact ih
  | enq u k _ ih =>
    intro x hx
    rw [(enqueue_cache _ _ u k).1]
    exact ih x hx
  | load u _ ih =>
    intro x hx
    have hx2 := ih x hx
    unfold loadResource
    split
    · exact hx2
    · simp only [lookupCache]
      split
      · simp
      · exact hx2

theorem evol_pending_ext {env : EngineEnv} {r : Bool} {s t : EngineState}
    (h : Evol env r s t) :
    ∃ L, t.pending = s.pending ++ L ∧
      (∀ it ∈ L, it.url ∈ t.processed ∧ it.url ∉ s.processed) ∧
      (L.map PendingWorkItem.url).Nodup := by
  induction h with
  | refl => exact ⟨[], by simp, by simp, by simp⟩
  | rcd l hst ih => exact ih
  | enq u k hst ih =>
    obtain ⟨L, hL, hmem, hnd⟩ := ih
    rcases enqueue_cases r _ u k with hcase | ⟨hnotmem, hcase⟩
    · rw [hcase]
      refine ⟨L, hL, fun it hit => ?_, hnd⟩
      exact hmem it hit
    · rw [hcase]
      refine ⟨L ++ [⟨u, k⟩], by simp [hL], ?_, ?_⟩
      · intro it hit
        rcases List.mem_append.1 hit with hold | hnew
        · obtain ⟨h1, h2⟩ := hmem it hold
          exact ⟨List.mem_cons_of_mem _ h1, h2⟩
        · have : it = ⟨u, k⟩ := by simpa using hnew
          subst this
          refine ⟨List.mem_cons_self _ _, fun hc => ?_⟩
          exact hnotmem (evol_processed_mono hst u hc)
      · rw [List.map_append]
        refine List.Nodup.append hnd (by simp) ?_
        intro x hx hy
        have hxu : x = u := by simpa using hy
        subst hxu
        obtain ⟨it, hit, hiturl⟩ := List.mem_map.1 hx
        obtain ⟨h1, _⟩ := hmem it hit
        rw [hiturl] at h1
        exact hnotmem h1
  | load u hst ih =>
    obtain ⟨L, hL, hmem, hnd⟩ := ih
    refine ⟨L, ?_, ?_, hnd⟩
    · rw [(loadResource_pending _ _ u).1, hL]
    · intro it hit
      obtain ⟨h1, h2⟩ := hmem it hit
      rw [(loadResource_pending _ _ u).2.1]
      exact ⟨h1, h2⟩

theorem filter_length_mono {α : Type} {p q : α → Bool}
    (h : ∀ x, p x = true → q x = true) (l : List α) :
    (l.filter p).length ≤ (l.filter q).length := by
  induction l with
  | nil => simp
  | cons a l ih =>
    by_cases hp : p a = true
    · rw [List.filter_cons_of_pos hp, List.filter_cons_of_pos (h a hp)]
      simpa using ih
    · rw [List.filter_cons_of_neg (by simpa using hp)]
      by_cases hq : q a = true
      · rw [List.filter_cons_of_pos hq]
        exact le_trans ih (by simp)
      · rw [List.filter_cons_of_neg (by simpa using hq)]
        exact ih

theorem filter_cons_processed_lt {U P : List String} {u : String}
    (hu : u ∈ U) (hnp : u ∉ P) :
    (U.filter fun x => !decide (x ∈ u :: P)).length <
      (U.filter fun x => !decide (x ∈ P)).length := by
  induction U with
  | nil => cases hu
  | cons a U ih =>
    by_cases ha : a = u
    · subst ha
      rw [List.filter_cons_of_neg (by simp), List.filter_cons_of_pos (by simpa using hnp)]
      refine Nat.lt_succ_of_le (filter_length_mono ?_ U)
      intro x hx
      simp only [Bool.not_eq_true', decide_eq_false_iff_not, List.mem_cons] at hx ⊢
      exact fun hc => hx (Or.inr hc)
    · have hu2 : u ∈ U := by
        rcases List.mem_cons.1 hu with h1 | h1
        · exact absurd h1.symm ha
        · exact h1
      by_cases hm : a ∈ P
      · rw [List.filter_cons_of_neg (by simp [hm]), List.filter_cons_of_neg (by simp [hm])]
        exact ih hu2
      · rw [List.filter_cons_of_pos (by simp [hm, Ne.symm ha, ha]),
          List.filter_cons_of_pos (by simpa using hm)]
        simpa using ih hu2

/-- Expansion never increases the termination measure, provided every URL
it marks processed comes from the universe `U`. -/
theorem evol_measure {env : EngineEnv} {r : Bool} {s t : EngineState} (U : List String)
    (h : Evol env r s t) (hU : ∀ x ∈ t.processed, x ∈ s.processed ∨ x ∈ U) :
    measureD U t ≤ measureD U s := by
  induction h with
  | refl => exact le_refl _
  | rcd l hst ih => exact ih hU
  | @enq t1 u k hst ih =>
    rcases enqueue_cases r t1 u k with hcase | ⟨hnotmem, hcase⟩
    · rw [hcase] at hU ⊢
      exact ih hU
    · have hmono := evol_processed_mono hst
      have ihle : measureD U t1 ≤ measureD U s := by
        refine ih fun x hx => ?_
        refine hU x ?_
        rw [hcase]
        exact List.mem_cons_of_mem _ hx
      have huU : u ∈ U := by
        have := hU u (by rw [hcase]; exact List.mem_cons_self _ _)
        rcases this with h1 | h1
        · exact absurd (hmono u h1) hnotmem
        · exact h1
      refine le_trans ?_ ihle
      rw [hcase]
      unfold measureD
      simp only [List.length_append, List.length_cons, List.length_nil]
      have := filter_cons_processed_lt (U := U) (u := u) huU hnotmem
      omega
  | @load t1 u hst ih =>
    have h1 : measureD U (loadResource env t1 u).2 = measureD U t1 := by
      unfold measureD
      rw [(loadResource_pending _ _ u).1, (loadResource_pending _ _ u).2.1]
    rw [h1]
    refine ih fun x hx => ?_
    refine hU x ?_
    rw [(loadResource_pending _ _ u).2.1]
    exact hx

/-! ## The cache invariant: the fetch log has no duplicates and mirrors
the cache keys -/

def CInv (st : EngineState) : Prop :=
  st.fetchLog.Nodup ∧ ∀ u, (lookupCache st.cache u).isSome ↔ u ∈ st.fetchLog

theorem cinv_init : CInv initState := by
  constructor
  · simp [initState]
  · intro u
    simp [initState, lookupCache]

theorem cinv_loadResource (env : EngineEnv) (st : EngineState) (u : String)
    (h : CInv st) : CInv (loadResource env st u).2 := by
  obtain ⟨hnd, hiff⟩ := h
  unfold loadResource
  cases hl : lookupCache st.cache u with
  | some v => exact ⟨hnd, hiff⟩
  | none =>
    simp only []
    have hu : u ∉ st.fetchLog := by
      intro hc
      have := (hiff u).2 hc
      rw [hl] at this
      simp at this
    constructor
    · refine List.Nodup.append hnd (by simp) ?_
      intro a ha hb
      have : a = u := by simpa using hb
      subst this
      exact hu ha
    · intro v
      simp only [lookupCache]
      split
      · next heq =>
        subst heq
        simp
      · next hne =>
        rw [hiff v]
        constructor
        · intro hv
          exact List.mem_append.2 (Or.inl hv)
        · intro hv
          rcases List.mem_append.1 hv with h1 | h1
          · exact h1
          · have h2 : v = u := by simpa using h1
            exact absurd h2.symm hne

theorem evol_cinv {env : EngineEnv} {r : Bool} {s t : EngineState}
    (h : Evol env r s t) (hs : CInv s) : CInv t := by
  induction h with
  | refl => exact hs
  | rcd l _ ih => exact ih
  | @enq t1 u k _ ih =>
    have h1 := enqueue_cache r t1 u k
    unfold CInv
    rw [h1.1, h1.2]
    exact ih
  | @load t1 u _ ih => exact cinv_loadResource env t1 u ih

theorem processPending_cinv (env : EngineEnv) (r : Bool) :
    ∀ (fuel : Nat) (st : EngineState), CInv st → CInv (processPending env r fuel st).1 := by
  intro fuel
  induction fuel with
  | zero =>
    intro st h
    simp only [processPending]
    exact h
  | succ n ih =>
    intro st h
    simp only [processPending]
    cases hp : st.pending with
    | nil => exact h
    | cons item rest =>
      exact ih _ (evol_cinv (evol_expandItem env r { st with pending := rest } item) h)

theorem processPending_requests (env : EngineEnv) (r : Bool) :
    ∀ (fuel : Nat) (st : EngineState),
      ∃ l, (processPending env r fuel st).1.requests = st.requests ++ l := by
  intro fuel
  induction fuel with
  | zero =>
    intro st
    simp only [processPending]
    exact ⟨[], by simp⟩
  | succ n ih =>
    intro st
    simp only [processPending]
    cases hp : st.pending with
    | nil => exact ⟨[], by simp⟩
    | cons item rest =>
      obtain ⟨l2, hl2⟩ := ih (expandItem env r { st with pending := rest } item)
      obtain ⟨l1, hl1⟩ :=
        evol_requests_ext (evol_expandItem env r { st with pending := rest } item)
      exact ⟨l1 ++ l2, by rw [hl2, hl1]; simp⟩

/-- Termination of the drain loop: if every URL an expansion step marks
processed lies in the finite universe `U`, then `measureD U` bounds the
number of iterations, so the queue drains within that much fuel. -/
theorem processPending_terminates (env : EngineEnv) (r : Bool) (U : List String)
    (HU : ∀ (s : EngineState) (it : PendingWorkItem),
      ∀ u ∈ (expandItem env r s it).processed, u ∈ s.processed ∨ u ∈ U) :
    ∀ (fuel : Nat) (st : EngineState), measureD U st ≤ fuel →
      (processPending env r fuel st).2 = true ∧
        (processPending env r fuel st).1.pending = [] := by
  intro fuel
  induction fuel with
  | zero =>
    intro st h
    have hlen : st.pending.length = 0 := by
      unfold measureD at h
      omega
    have hnil : st.pending = [] := List.length_eq_zero.1 hlen
    simp only [processPending]
    exact ⟨by simp [hnil], hnil⟩
  | succ n ih =>
    intro st h
    simp only [processPending]
    cases hp : st.pending with
    | nil => exact ⟨rfl, hp⟩
    | cons item rest =>
      have hm1 : measureD U { st with pending := rest } + 1 = measureD U st := by
        unfold measureD
        rw [hp]
        simp only [List.length_cons]
        omega
      have hev := evol_expandItem env r { st with pending := rest } item
      have hle := evol_measure U hev
        (fun x hx => HU { st with pending := rest } item x hx)
      exact ih _ (by omega)

/-! ## Trace of the drain loop: the popped URLs -/

theorem processPendingT_agree (env : EngineEnv) (r : Bool) :
    ∀ (fuel : Nat) (st : EngineState),
      (processPendingT env r fuel st).1 = (processPending env r fuel st).1 ∧
        (processPendingT env r fuel st).2.1 = (processPending env r fuel st).2 := by
  intro fuel
  induction fuel with
  | zero =>
    intro st
    exact ⟨rfl, rfl⟩
  | succ n ih =>
    intro st
    simp only [processPending, processPendingT]
    cases hp : st.pending with
    | nil => exact ⟨rfl, rfl⟩
    | cons item rest =>
      exact ih (expandItem env r { st with pending := rest } item)

/-- The queue invariant of the drain loop: pending URLs are pairwise
distinct and all already marked processed. -/
def QInv (st : EngineState) : Prop :=
  (pendingUrls st).Nodup ∧ ∀ it ∈ st.pending, it.url ∈ st.processed

theorem qinv_step (env : EngineEnv) (r : Bool) {st : EngineState}
    {item : PendingWorkItem} {rest : List PendingWorkItem}
    (hp : st.pending = item :: rest) (h : QInv st) :
    QInv (expandItem env r { st with pending := rest } item) := by
  obtain ⟨hnd, hmem⟩ := h
  have hev := evol_expandItem env r { st with pending := rest } item
  obtain ⟨L, hL, hLmem, hLnd⟩ := evol_pending_ext hev
  have hmono := evol_processed_mono hev
  have hndrest : (rest.map PendingWorkItem.url).Nodup := by
    have : (pendingUrls st) = item.url :: rest.map PendingWorkItem.url := by
      simp [pendingUrls, hp]
    rw [this] at hnd
    exact hnd.of_cons
  constructor
  · unfold pendingUrls
    rw [hL, List.map_append]
    refine List.Nodup.append hndrest hLnd ?_
    intro x hx hy
    obtain ⟨it1, hit1, hurl1⟩ := List.mem_map.1 hx
    obtain ⟨it2, hit2, hurl2⟩ := List.mem_map.1 hy
    have h1 : it1.url ∈ st.processed :=
      hmem it1 (by rw [hp]; exact List.mem_cons_of_mem _ hit1)
    have h2 := (hLmem it2 hit2).2
    rw [hurl1] at h1
    rw [hurl2] at h2
    exact h2 h1
  · intro it hit
    rw [hL] at hit
    rcases List.mem_append.1 hit with h1 | h1
    · exact hmono it.url (hmem it (by rw [hp]; exact List.mem_cons_of_mem _ h1))
    · exact (hLmem it h1).1

theorem processPendingT_trace_mem (env : EngineEnv) (r : Bool) :
    ∀ (fuel : Nat) (st : EngineState) (u : String),
      u ∈ (processPendingT env r fuel st).2.2 →
        u ∈ pendingUrls st ∨ u ∉ st.processed := by
  intro fuel
  induction fuel with
  | zero =>
    intro st u hu
    simp [processPendingT] at hu
  | succ n ih =>
    intro st u hu
    simp only [processPendingT] at hu
    revert hu
    cases hp : st.pending with
    | nil => intro hu; simp at hu
    | cons item rest =>
      intro hu
      simp only [] at hu
      rcases List.mem_cons.1 hu with hhead | htail
      · subst hhead
        exact Or.inl (by simp [pendingUrls, hp])
      · have hev := evol_expandItem env r { st with pending := rest } item
        obtain ⟨L, hL, hLmem, _⟩ := evol_pending_ext hev
        have hmono := evol_processed_mono hev
        rcases ih _ u htail with hpend | hproc
        · unfold pendingUrls at hpend
          rw [hL, List.map_append] at hpend
          rcases List.mem_append.1 hpend with h1 | h1
          · exact Or.inl (by simp [pendingUrls, hp]; right; simpa using h1)
          · obtain ⟨it1, hit1, hurl1⟩ := List.mem_map.1 h1
            exact Or.inr (hurl1 ▸ (hLmem it1 hit1).2)
        · exact Or.inr fun hc => hproc (hmono u hc)

theorem processPendingT_nodup (env : EngineEnv) (r : Bool) :
    ∀ (fuel : Nat) (st : EngineState), QInv st →
      (processPendingT env r fuel st).2.2.Nodup := by
  intro fuel
  induction fuel with
  | zero =>
    intro st _
    simp [processPendingT]
  | succ n ih =>
    intro st h
    simp only [processPendingT]
    cases hp : st.pending with
    | nil => simp
    | cons item rest =>
      simp only []
      have hq2 := qinv_step env r hp h
      refine List.Nodup.cons ?_ (ih _ hq2)
      intro hin
      have hev := evol_expandItem env r { st with pending := rest } item
      obtain ⟨L, hL, hLmem, _⟩ := evol_pending_ext hev
      have hmono := evol_processed_mono hev
      have hproc : item.url ∈ st.processed :=
        h.2 item (by rw [hp]; exact List.mem_cons_self _ _)
      rcases processPendingT_trace_mem env r n _ item.url hin with hpend | hnproc
      · unfold pendingUrls at hpend
        rw [hL, List.map_append] at hpend
        rcases List.mem_append.1 hpend with h1 | h1
        · have : (pendingUrls st).Nodup := h.1
          rw [show pendingUrls st = item.url :: rest.map PendingWorkItem.url by
            simp [pendingUrls, hp]] at this
          exact (List.nodup_cons.1 this).1 h1
        · obtain ⟨it1, hit1, hurl1⟩ := List.mem_map.1 h1
          exact (hLmem it1 hit1).2 (hurl1 ▸ hproc)
      · exact hnproc (hmono item.url hproc)

theorem processPendingT_fifo (env : EngineEnv) (r : Bool) :
    ∀ (fuel : Nat) (st : EngineState),
      (processPendingT env r fuel st).2.1 = true →
        ∃ tl, pendingUrls st ++ tl = (processPendingT env r fuel st).2.2 := by
  intro fuel
  induction fuel with
  | zero =>
    intro st h
    simp only [processPendingT] at h ⊢
    have : st.pending = [] := by simpa using h
    exact ⟨[], by simp [pendingUrls, this]⟩
  | succ n ih =>
    intro st h
    simp only [processPendingT] at h ⊢
    revert h
    cases hp : st.pending with
    | nil =>
      intro _
      exact ⟨[], by simp [pendingUrls, hp]⟩
    | cons item rest =>
      intro h
      simp only [] at h ⊢
      obtain ⟨tl2, htl2⟩ := ih _ h
      have hev := evol_expandItem env r { st with pending := rest } item
      obtain ⟨L, hL, _, _⟩ := evol_pending_ext hev
      refine ⟨L.map PendingWorkItem.url ++ tl2, ?_⟩
      have hpu : pendingUrls st = item.url :: rest.map PendingWorkItem.url := by
        simp [pendingUrls, hp]
      rw [hpu]
      have hpu2 : pendingUrls (expandItem env r { st with pending := rest } item) =
          rest.map PendingWorkItem.url ++ L.map PendingWorkItem.url := by
        unfold pendingUrls
        rw [hL, List.map_append]
      rw [hpu2] at htl2
      simpa [List.append_assoc] using congrArg (List.cons item.url) htl2

/-! ## Further helper lemmas -/

theorem evol_false_qpart {env : EngineEnv} {s t : EngineState}
    (h : Evol env false s t) : t.processed = s.processed ∧ t.pending = s.pending := by
  induction h with
  | refl => exact ⟨rfl, rfl⟩
  | rcd l _ ih => exact ih
  | @enq t1 u k _ ih =>
    rw [enqueue_false]
    exact ih
  | @load t1 u _ ih =>
    rw [(loadResource_pending _ _ u).2.1, (loadResource_pending _ _ u).1]
    exact ih

theorem addUnique_nodup {acc : List String} (h : acc.Nodup) (x : String) :
    (addUnique acc x).Nodup := by
  unfold addUnique
  split
  · exact h
  · next hx =>
    refine List.Nodup.append h (by simp) ?_
    intro a ha hb
    have : a = x := by simpa using hb
    subst this
    exact hx ha

theorem foldl_addUnique_nodup (l : List String) :
    ∀ acc : List String, acc.Nodup → (l.foldl addUnique acc).Nodup := by
  induction l with
  | nil => exact fun acc h => h
  | cons x xs ih => exact fun acc h => ih (addUnique acc x) (addUnique_nodup h x)

theorem dedupFirst_nodup (l : List String) : (dedupFirst l).Nodup :=
  foldl_addUnique_nodup l [] (by simp)

theorem dropWhile_head_not {α : Type} (p : α → Bool) (l : List α) {c : α} {cs : List α}
    (h : l.dropWhile p = c :: cs) : p c = false := by
  induction l with
  | nil => simp at h
  | cons a l ih =>
    rw [List.dropWhile_cons] at h
    split at h
    · exact ih h
    · next hp =>
      cases h
      simpa using hp

theorem trimChars_has_nonws {cap : List Char} (h : trimChars cap ≠ []) :
    ∃ c ∈ trimChars cap, isWsChar c = false := by
  unfold trimChars at *
  cases hrev : (cap.dropWhile isWsChar).reverse.dropWhile isWsChar with
  | nil =>
    exfalso
    exact h (by rw [hrev]; rfl)
  | cons c cs =>
    refine ⟨c, ?_, dropWhile_head_not _ _ hrev⟩
    exact List.mem_reverse.2 (List.mem_cons_self _ _)

theorem resolveUrl_ne_empty (env : EngineEnv)
    (hparse : ∀ (b0 : Option String) (u : String), env.parse b0 u ≠ some "")
    {b : Option String} {u : String} (hu : u ≠ "") :
    ∃ v, resolveUrl env b u = some v ∧ v ≠ "" := by
  unfold resolveUrl
  rw [if_neg hu]
  cases b with
  | none =>
    refine ⟨_, rfl, ?_⟩
    cases hp : env.parse none u with
    | none => simpa [hp] using hu
    | some p =>
      simp only [hp, Option.getD_some]
      intro he
      exact hparse none u (he ▸ hp)
  | some s =>
    show ∃ v,
      (if s = "" then some ((env.parse none u).getD u)
        else some ((env.parse (some s) u).getD u)) = some v ∧ v ≠ ""
    by_cases hs : s = ""
    · rw [if_pos hs]
      refine ⟨_, rfl, ?_⟩
      cases hp : env.parse none u with
      | none => simpa [hp] using hu
      | some p =>
        simp only [hp, Option.getD_some]
        intro he
        exact hparse none u (he ▸ hp)
    · rw [if_neg hs]
      refine ⟨_, rfl, ?_⟩
      cases hp : env.parse (some s) u with
      | none => simpa [hp] using hu
      | some p =>
        simp only [hp, Option.getD_some]
        intro he
        exact hparse (some s) u (he ▸ hp)

/-! ## Shared concrete environments and states for witnesses -/

/-- A stub environment: URL parsing always throws (falling back to the raw
string), the fetch primitive is unavailable, and the rendered document is
empty. -/
def stubEnv : EngineEnv :=
  ⟨fun _ _ => none, fun _ => .noFetch, fun _ _ => ⟨[], ""⟩⟩

/-- An environment whose rendered document reports the same URL both via
the static script harvest and via the interception callback. -/
def dupEnv : EngineEnv :=
  ⟨fun _ _ => none, fun _ => .noFetch,
    fun _ _ => ⟨[.scriptSrc "u", .intercept "u" none (some .fetch) none], ""⟩⟩

/-- A queue state with one pending, already-processed work item. -/
def queueState : EngineState :=
  ⟨[], [⟨"u", none⟩], ["u"], [], []⟩

/-! ## The claims -/

/-- C5: for every base URL and reference string, `resolveUrl` returns
absent exactly when the reference is empty; otherwise, when the URL
constructor fails (on the base actually used by the code), it returns the
reference string unchanged — a malformed URL is still reported verbatim. -/
theorem claim_C5_resolveUrl_fallback (env : EngineEnv) (b : Option String) (ref : String) :
    (resolveUrl env b ref = none ↔ ref = "") ∧
      (ref ≠ "" →
        (match b with
          | some s => if s = "" then env.parse none ref else env.parse (some s) ref
          | none => env.parse none ref) = none →
        resolveUrl env b ref = some ref) := by
  constructor
  · constructor
    · intro h
      by_contra hne
      unfold resolveUrl at h
      rw [if_neg hne] at h
      revert h
      cases b with
      | none => simp
      | some s =>
        by_cases hs : s = "" <;> simp [hs]
    · intro h
      simp [resolveUrl, h]
  · intro hne hfail
    unfold resolveUrl
    rw [if_neg hne]
    cases b with
    | none => simp_all
    | some s =>
      by_cases hs : s = "" <;> simp_all

/-- Witness for C5 at a concrete environment and inputs. -/
theorem claim_C5_resolveUrl_fallback_witness :
    resolveUrl stubEnv none "x" = some "x" ∧ resolveUrl stubEnv none "" = none :=
  ⟨(claim_C5_resolveUrl_fallback stubEnv none "x").2 (by decide) rfl,
    (claim_C5_resolveUrl_fallback stubEnv none "").1.2 rfl⟩

/-- C3: a URL with a `data:`, `javascript:` or `about:` scheme
(case-insensitively) is never enqueued — neither the queue nor the
processed set changes — yet `recordUrl` still appends a record for it, so
skipping applies only to recursive expansion, never to reporting. -/
theorem claim_C3_skip_only_recursion (env : EngineEnv) (recursive : Bool)
    (st : EngineState) (u : String) (k : Option ResourceKind) (src : RequestSource)
    (b : Option String) (h : isSkippableUrl u = true) :
    enqueue recursive st u k = st ∧
      ∃ resolved, resolveUrl env b u = some resolved ∧
        (recordUrl env st u src b).requests =
          st.requests ++ [⟨resolved, src, st.requests.length⟩] := by
  have hne : u ≠ "" := by
    intro he
    rw [he] at h
    exact absurd h (by decide)
  constructor
  · unfold enqueue
    rw [if_pos]
    simp [h]
  · have hsome : ∃ rv, resolveUrl env b u = some rv := by
      unfold resolveUrl
      rw [if_neg hne]
      cases b with
      | none => exact ⟨_, rfl⟩
      | some s =>
        show ∃ rv,
          (if s = "" then some ((env.parse none u).getD u)
            else some ((env.parse (some s) u).getD u)) = some rv
        by_cases hs : s = ""
        · rw [if_pos hs]
          exact ⟨_, rfl⟩
        · rw [if_neg hs]
          exact ⟨_, rfl⟩
    obtain ⟨rv, hrv⟩ := hsome
    refine ⟨rv, hrv, ?_⟩
    unfold recordUrl
    rw [hrv]

/-- Witness for C3 at a concrete skippable URL. -/
theorem claim_C3_skip_only_recursion_witness :
    enqueue true initState "data:text/plain,x" (some .css) = initState ∧
      ∃ resolved, resolveUrl stubEnv none "data:text/plain,x" = some resolved ∧
        (recordUrl stubEnv initState "data:text/plain,x" .resource none).requests =
          initState.requests ++ [⟨resolved, .resource, initState.requests.length⟩] :=
  claim_C3_skip_only_recursion stubEnv true initState "data:text/plain,x" (some .css)
    .resource none (by decide)

/-- C1: the resource cache's `loadResource` returns the memoized outcome
without re-invoking the retrieval primitive on a hit; on a miss it invokes
the primitive once and stores the outcome — present or absent — under the
URL; a failed retrieval (primitive unavailable, thrown error, or non-ok
response) yields absent; and over a whole discovery run the primitive is
invoked at most once per URL (the ghost invocation log has no
duplicates). -/
theorem claim_C1_cache_at_most_once (env : EngineEnv) :
    (∀ (st : EngineState) (u : String) (r0 : Option ResourceContent),
      lookupCache st.cache u = some r0 → loadResource env st u = (r0, st)) ∧
    (∀ (st : EngineState) (u : String), lookupCache st.cache u = none →
      loadResource env st u =
        (fetchResourceContent env u,
          { st with
            cache := (u, fetchResourceContent env u) :: st.cache
            fetchLog := st.fetchLog ++ [u] })) ∧
    (∀ u : String,
      (env.fetchFn u = .noFetch ∨ env.fetchFn u = .netError ∨
        ∃ t c, env.fetchFn u = .response false t c) →
      fetchResourceContent env u = none) ∧
    (∀ (opts : LighterceptorOptions) (input : String) (fuel : Nat),
      ((runCore env opts input fuel).2.1.fetchLog).Nodup) := by
  refine ⟨?_, ?_, ?_, ?_⟩
  · intro st u r0 h
    unfold loadResource
    rw [h]
  · intro st u h
    unfold loadResource
    rw [h]
  · intro u h
    unfold fetchResourceContent
    rcases h with h | h | ⟨t, c, h⟩ <;> rw [h]
    rfl
  · intro opts input fuel
    unfold runCore
    cases hk : detectInputKind input <;> simp only []
    · exact (processPending_cinv env _ fuel _
        (evol_cinv (evol_analyzeHtml env _ initState input none true) cinv_init)).1
    · exact (processPending_cinv env _ fuel _
        (evol_cinv (evol_recordCssUrls env _ initState input none) cinv_init)).1
    · exact (processPending_cinv env _ fuel _
        (evol_cinv (evol_analyzeJs env _ initState input none) cinv_init)).1

/-- Witness for C1 at the stub environment. -/
theorem claim_C1_cache_at_most_once_witness :
    loadResource stubEnv initState "u" =
      (fetchResourceContent stubEnv "u",
        { initState with
          cache := ("u", fetchResourceContent stubEnv "u") :: initState.cache
          fetchLog := initState.fetchLog ++ ["u"] }) ∧
    fetchResourceContent stubEnv "u" = none ∧
    ((runCore stubEnv ⟨none, some true⟩ "url(a)" 5).2.1.fetchLog).Nodup :=
  ⟨(claim_C1_cache_at_most_once stubEnv).2.1 initState "u" rfl,
    (claim_C1_cache_at_most_once stubEnv).2.2.1 "u" (Or.inl rfl),
    (claim_C1_cache_at_most_once stubEnv).2.2.2 ⟨none, some true⟩ "url(a)" 5⟩

/-- C2: `enqueue` is a no-op for an already-processed URL, and otherwise
marks the URL processed atomically with appending the work item; the drain
loop terminates whenever every URL any expansion step can mark processed
lies in a finite universe `U`, within `measureD U` iterations; the
instrumented drain agrees with the plain one; the popped URLs are pairwise
distinct (each distinct URL is popped and expanded at most once); and pops
happen in FIFO order — the initial queue's URLs form a prefix of the pop
trace. -/
theorem claim_C2_drain_terminates :
    (∀ (recursive : Bool) (st : EngineState) (u : String) (k : Option ResourceKind),
      u ∈ st.processed → enqueue recursive st u k = st) ∧
    (∀ (st : EngineState) (u : String) (k : Option ResourceKind),
      isSkippableUrl u = false → u ∉ st.processed →
      enqueue true st u k =
        { st with processed := u :: st.processed, pending := st.pending ++ [⟨u, k⟩] }) ∧
    (∀ (env : EngineEnv) (recursive : Bool) (U : List String),
      (∀ (s : EngineState) (it : PendingWorkItem),
        ∀ u ∈ (expandItem env recursive s it).processed, u ∈ s.processed ∨ u ∈ U) →
      ∀ (fuel : Nat) (st : EngineState), measureD U st ≤ fuel →
        (processPending env recursive fuel st).2 = true ∧
          (processPending env recursive fuel st).1.pending = []) ∧
    (∀ (env : EngineEnv) (recursive : Bool) (fuel : Nat) (st : EngineState),
      (processPendingT env recursive fuel st).1 = (processPending env recursive fuel st).1 ∧
        (processPendingT env recursive fuel st).2.1 = (processPending env recursive fuel st).2) ∧
    (∀ (env : EngineEnv) (recursive : Bool) (fuel : Nat) (st : EngineState), QInv st →
      (processPendingT env recursive fuel st).2.2.Nodup) ∧
    (∀ (env : EngineEnv) (recursive : Bool) (fuel : Nat) (st : EngineState),
      (processPendingT env recursive fuel st).2.1 = true →
      ∃ tl, pendingUrls st ++ tl = (processPendingT env recursive fuel st).2.2) :=
  ⟨fun r st u k h => enqueue_of_mem r st u k h,
    fun st u k h1 h2 => enqueue_fires st u k h1 h2,
    fun env r U hU fuel st h => processPending_terminates env r U hU fuel st h,
    fun env r fuel st => processPendingT_agree env r fuel st,
    fun env r fuel st h => processPendingT_nodup env r fuel st h,
    fun env r fuel st h => processPendingT_fifo env r fuel st h⟩

/-- Witness for C2 at a concrete queue state and environment. -/
theorem claim_C2_drain_terminates_witness :
    enqueue true queueState "u" none = queueState ∧
    enqueue true initState "v" none =
      { initState with
        processed := "v" :: initState.processed
        pending := initState.pending ++ [⟨"v", none⟩] } ∧
    ((processPending stubEnv false 1 queueState).2 = true ∧
      (processPending stubEnv false 1 queueState).1.pending = []) ∧
    (processPendingT stubEnv false 1 queueState).2.2.Nodup ∧
    (∃ tl, pendingUrls queueState ++ tl = (processPendingT stubEnv false 1 queueState).2.2) := by
  have HU : ∀ (s : EngineState) (it : PendingWorkItem),
      ∀ u ∈ (expandItem stubEnv false s it).processed,
        u ∈ s.processed ∨ u ∈ ([] : List String) := by
    intro s it u hu
    rw [(evol_false_qpart (evol_expandItem stubEnv false s it)).1] at hu
    exact Or.inl hu
  refine ⟨claim_C2_drain_terminates.1 true queueState "u" none (by decide),
    claim_C2_drain_terminates.2.1 initState "v" none (by decide) (by decide),
    claim_C2_drain_terminates.2.2.1 stubEnv false [] HU 1 queueState (by decide),
    claim_C2_drain_terminates.2.2.2.2.1 stubEnv false 1 queueState ⟨by decide, by decide⟩,
    claim_C2_drain_terminates.2.2.2.2.2 stubEnv false 1 queueState (by decide)⟩

/-- C4: the resource-kind classifier applies its rules in strict
first-match-wins priority — content-type substring (`text/html`,
`text/css`, `javascript`), then URL extension, then body sniffing — and
when no rule matches the result is unknown and the drained item is dropped
without being re-enqueued or recorded. -/
theorem claim_C4_classifier_priority :
    (∀ (url : String) (ct : Option String) (text : String),
      listContainsSub ((ct.getD "").data.map Char.toLower) "text/html".data = true →
      detectResourceKind url ct text = some .html) ∧
    (∀ (url : String) (ct : Option String) (text : String),
      listContainsSub ((ct.getD "").data.map Char.toLower) "text/html".data = false →
      listContainsSub ((ct.getD "").data.map Char.toLower) "text/css".data = true →
      detectResourceKind url ct text = some .css) ∧
    (∀ (url : String) (ct : Option String) (text : String),
      listContainsSub ((ct.getD "").data.map Char.toLower) "text/html".data = false →
      listContainsSub ((ct.getD "").data.map Char.toLower) "text/css".data = false →
      listContainsSub ((ct.getD "").data.map Char.toLower) "javascript".data = true →
      detectResourceKind url ct text = some .js) ∧
    (∀ (url : String) (ct : Option String) (text : String) (k : ResourceKind),
      listContainsSub ((ct.getD "").data.map Char.toLower) "text/html".data = false →
      listContainsSub ((ct.getD "").data.map Char.toLower) "text/css".data = false →
      listContainsSub ((ct.getD "").data.map Char.toLower) "javascript".data = false →
      inferResourceKindFromUrl url = some k →
      detectResourceKind url ct text = some k) ∧
    (∀ (url : String) (ct : Option String) (text : String),
      listContainsSub ((ct.getD "").data.map Char.toLower) "text/html".data = false →
      listContainsSub ((ct.getD "").data.map Char.toLower) "text/css".data = false →
      listContainsSub ((ct.getD "").data.map Char.toLower) "javascript".data = false →
      inferResourceKindFromUrl url = none →
      "<!doctype".data.isPrefixOf (text.data.dropWhile isWsChar) = false →
      "<html".data.isPrefixOf (text.data.dropWhile isWsChar) = false →
      "<".data.isPrefixOf (text.data.dropWhile isWsChar) = false →
      "@".data.isPrefixOf (text.data.dropWhile isWsChar) = false →
      listContainsSub (text.data.dropWhile isWsChar) "url(".data = false →
      looksLikeJavaScript (text.data.dropWhile isWsChar) = false →
      detectResourceKind url ct text = none) ∧
    (∀ (env : EngineEnv) (recursive : Bool) (st : EngineState) (item : PendingWorkItem)
      (text : String) (ct : Option String),
      lookupCache st.cache item.url = some (some ⟨text, ct⟩) →
      item.kind = none →
      detectResourceKind item.url ct text = none →
      expandItem env recursive st item = st) := by
  refine ⟨?_, ?_, ?_, ?_, ?_, ?_⟩
  · intro url ct text h
    simp [detectResourceKind, h]
  · intro url ct text h1 h2
    simp [detectResourceKind, h1, h2]
  · intro url ct text h1 h2 h3
    simp [detectResourceKind, h1, h2, h3]
  · intro url ct text k h1 h2 h3 h4
    simp [detectResourceKind, h1, h2, h3, h4]
  · intro url ct text h1 h2 h3 h4 h5 h6 h7 h8 h9 h10
    simp [detectResourceKind, h1, h2, h3, h4, h5, h6, h7, h8, h9, h10]
  · intro env recursive st item text ct hcache hkind hdet
    simp only [expandItem, loadResource, hcache]
    simp [hkind, hdet]

/-- Witness for C4 at concrete inputs exercising each rule. -/
theorem claim_C4_classifier_priority_witness :
    detectResourceKind "u" (some "Text/HTML; charset=utf8") "" = some .html ∧
    detectResourceKind "x.css" (some "application/javascript") "zzz" = some .js ∧
    detectResourceKind "x.css" none "zzz" = some .css ∧
    detectResourceKind "u" none "zzz" = none ∧
    expandItem stubEnv true
      { initState with cache := [("u", some ⟨"zzz", none⟩)] } ⟨"u", none⟩ =
      { initState with cache := [("u", some ⟨"zzz", none⟩)] } :=
  ⟨claim_C4_classifier_priority.1 "u" (some "Text/HTML; charset=utf8") "" (by decide),
    claim_C4_classifier_priority.2.2.1 "x.css" (some "application/javascript") "zzz"
      (by decide) (by decide) (by decide),
    claim_C4_classifier_priority.2.2.2.1 "x.css" none "zzz" .css
      (by decide) (by decide) (by decide) (by decide),
    claim_C4_classifier_priority.2.2.2.2.1 "u" none "zzz"
      (by decide) (by decide) (by decide) (by decide) (by decide) (by decide)
      (by decide) (by decide) (by decide) (by decide),
    claim_C4_classifier_priority.2.2.2.2.2 stubEnv true
      { initState with cache := [("u", some ⟨"zzz", none⟩)] } ⟨"u", none⟩ "zzz" none
      rfl rfl (by decide)⟩

/-- C6 counterexample: the CSS extractor does not de-duplicate — the same
reference captured twice by the `url(...)` scan appears twice in the
returned `urls` sequence. -/
theorem claim_C6_extractor_dedup_counterexample :
    ¬ (extractCssDependencies "url(a) url(a)").urls.Nodup := by decide

/-- C6 amended: the script-dependency extractor returns de-duplicated
sequences (each category is accumulated into an insertion-ordered set), but
the CSS extractor pushes every match, so only the four JS categories are
duplicate-free. -/
theorem claim_C6_js_extractor_dedup (s : String) :
    (extractJsDependencies s).imports.Nodup ∧
      (extractJsDependencies s).importScripts.Nodup ∧
      (extractJsDependencies s).fetches.Nodup ∧
      (extractJsDependencies s).xhrs.Nodup :=
  ⟨dedupFirst_nodup _, dedupFirst_nodup _, dedupFirst_nodup _, dedupFirst_nodup _⟩

/-- C7 counterexample: the two CSS categories do not partition the
discovered references — an `@import url(...)` target is captured by both
scans and appears in `imports` and in `urls`. -/
theorem claim_C7_css_partition_counterexample :
    "a.css" ∈ (extractCssDependencies "@import url(\"a.css\");").imports ∧
      "a.css" ∈ (extractCssDependencies "@import url(\"a.css\");").urls := by decide

/-- C7 amended: every `@import` target goes to `imports` and every
`url(...)` occurrence goes to `urls` — including `@import url(...)`
targets, which therefore appear in both categories (they overlap rather
than partition) — and captures that are empty or whitespace-only are
discarded from both: every returned element is nonempty and contains a
non-whitespace character. -/
theorem claim_C7_css_classification :
    (∀ (css : String) (e : String), e ∈ (extractCssDependencies css).imports →
      e ≠ "" ∧ ∃ c ∈ e.data, isWsChar c = false) ∧
    (∀ (css : String) (e : String), e ∈ (extractCssDependencies css).urls →
      e ≠ "" ∧ ∃ c ∈ e.data, isWsChar c = false) ∧
    ("a.css" ∈ (extractCssDependencies "@import url(\"x\"); @import url(\"a.css\");").imports ∧
      "a.css" ∈ (extractCssDependencies "@import url(\"x\"); @import url(\"a.css\");").urls) := by
  have key : ∀ (l : List (List Char)) (e : String),
      e ∈ l.filterMap (fun cap =>
        let u := trimChars cap
        if u.length > 0 then some (String.mk u) else none) →
      e ≠ "" ∧ ∃ c ∈ e.data, isWsChar c = false := by
    intro l e he
    obtain ⟨cap, _, hf⟩ := List.mem_filterMap.1 he
    by_cases hlen : (trimChars cap).length > 0
    · rw [if_pos hlen] at hf
      cases hf
      have hne : trimChars cap ≠ [] := by
        intro hc
        rw [hc] at hlen
        simp at hlen
      refine ⟨?_, trimChars_has_nonws hne⟩
      intro hc
      exact hne (congrArg String.data hc)
    · rw [if_neg hlen] at hf
      cases hf
  exact ⟨fun css e he => key _ e he, fun css e he => key _ e he, by decide⟩

/-- Witness for C7 applying the amended claim at a concrete stylesheet and
element. -/
theorem claim_C7_css_classification_witness :
    ("bg.png" ≠ "" ∧ ∃ c ∈ "bg.png".data, isWsChar c = false) ∧
      ("b.css" ≠ "" ∧ ∃ c ∈ "b.css".data, isWsChar c = false) :=
  ⟨claim_C7_css_classification.2.1 "x \x7b a: url( bg.png ) \x7d" "bg.png" (by decide),
    claim_C7_css_classification.1 "@import \"b.css\";" "b.css" (by decide)⟩

/-- C8: with recursion disabled, two runs of the engine on the same input
with the same stubbed environment but different wall clocks produce request
lists that agree element-wise on url and source, in order; only timestamps
and the capturedAt string may differ. -/
theorem claim_C8_run_deterministic (env : EngineEnv) (input : String) (fuel : Nat)
    (cap1 cap2 : String) (c1 c2 : Nat → Nat) (opts : LighterceptorOptions)
    (_hrec : opts.recursion = some false ∨ opts.recursion = none) :
    ((run env opts input fuel cap1 c1).1.requests.map fun rec => (rec.url, rec.source)) =
      ((run env opts input fuel cap2 c2).1.requests.map fun rec => (rec.url, rec.source)) := by
  unfold run
  simp only [List.map_map]
  rfl

/-- Witness for C8 at the stub environment with two different clocks. -/
theorem claim_C8_run_deterministic_witness :
    ((run stubEnv ⟨none, some false⟩ "url(a)" 0 "t1" (fun n => n)).1.requests.map
        fun rec => (rec.url, rec.source)) =
      ((run stubEnv ⟨none, some false⟩ "url(a)" 0 "t2" (fun n => n + 7)).1.requests.map
        fun rec => (rec.url, rec.source)) :=
  claim_C8_run_deterministic stubEnv "url(a)" 0 "t1" "t2" (fun n => n) (fun n => n + 7)
    ⟨none, some false⟩ (Or.inl rfl)

/-- C9: within one run the request log is append-only — every engine
operation only ever extends it on the right, and none mutates or removes an
appended record — and no uniqueness is enforced: the same URL discovered
via two different mechanisms (static script harvest and the interception
callback) yields two distinct records that are preserved, not merged. -/
theorem claim_C9_log_append_only :
    (∀ (env : EngineEnv) (st : EngineState) (u : String) (src : RequestSource)
      (b : Option String), ∃ l, (recordUrl env st u src b).requests = st.requests ++ l) ∧
    (∀ (r : Bool) (st : EngineState) (u : String) (k : Option ResourceKind),
      (enqueue r st u k).requests = st.requests) ∧
    (∀ (env : EngineEnv) (r : Bool) (st : EngineState) (css : String) (b : Option String),
      ∃ l, (recordCssUrls env r st css b).requests = st.requests ++ l) ∧
    (∀ (env : EngineEnv) (r : Bool) (st : EngineState) (js : String) (b : Option String),
      ∃ l, (analyzeJs env r st js b).requests = st.requests ++ l) ∧
    (∀ (env : EngineEnv) (r : Bool) (b : Option String) (st : EngineState) (e : DomEvent),
      ∃ l, (processDomEvent env r b st e).requests = st.requests ++ l) ∧
    (∀ (env : EngineEnv) (r : Bool) (st : EngineState) (html : String) (b : Option String)
      (cap : Bool), ∃ l, (analyzeHtml env r st html b cap).2.requests = st.requests ++ l) ∧
    (∀ (env : EngineEnv) (st : EngineState) (u : String),
      (loadResource env st u).2.requests = st.requests) ∧
    (∀ (env : EngineEnv) (r : Bool) (st : EngineState) (it : PendingWorkItem),
      ∃ l, (expandItem env r st it).requests = st.requests ++ l) ∧
    (∀ (env : EngineEnv) (r : Bool) (fuel : Nat) (st : EngineState),
      ∃ l, (processPending env r fuel st).1.requests = st.requests ++ l) ∧
    ((runCore dupEnv ⟨none, none⟩ "<x>" 0).2.1.requests.map
        (fun rec => (rec.url, rec.source)) = [("u", .resource), ("u", .fetch)]) :=
  ⟨fun env st u src b => (recordUrl_evol env st u src b).2.2.2.2,
    fun r st u k => enqueue_requests r st u k,
    fun env r st css b => evol_requests_ext (evol_recordCssUrls env r st css b),
    fun env r st js b => evol_requests_ext (evol_analyzeJs env r st js b),
    fun env r b st e => evol_requests_ext (evol_processDomEvent env r b st e),
    fun env r st html b cap => evol_requests_ext (evol_analyzeHtml env r st html b cap),
    fun env st u => (loadResource_pending env st u).2.2,
    fun env r st it => evol_requests_ext (evol_expandItem env r st it),
    fun env r fuel st => processPending_requests env r fuel st,
    by decide⟩

/-- C10 counterexample: a link whose rel contains "icon" is not always kept
out of the recursion queue — `rel="stylesheet icon"` contains "icon", yet
the link is enqueued (through its stylesheet branch). -/
theorem claim_C10_icon_counterexample :
    strContainsSub (lowerStr "stylesheet icon") "icon" = true ∧
      (processDomEvent stubEnv true none initState
          (.linkTag "stylesheet icon" (some "https://e.com/a.css") "" "")).pending ≠ [] := by
  decide

/-- C10 amended: a link whose rel contains "icon" (case-insensitively) but
neither "stylesheet" nor "preload", with a nonempty href, is recorded with
source resource exactly like the other intercepted link kinds, and its
processing changes nothing else — in particular it is never enqueued. -/
theorem claim_C10_icon_recorded_not_enqueued (env : EngineEnv) (recursive : Bool)
    (b : Option String) (st : EngineState) (rel : String) (hrefAttr : Option String)
    (hrefProp : String) (imagesrcset : String)
    (hicon : strContainsSub (lowerStr rel) "icon" = true)
    (hnostyle : strContainsSub (lowerStr rel) "stylesheet" = false)
    (hnopre : strContainsSub (lowerStr rel) "preload" = false)
    (hhref : hrefAttr.getD hrefProp ≠ "")
    (hparse : ∀ (b0 : Option String) (u : String), env.parse b0 u ≠ some "") :
    ∃ resolved,
      processDomEvent env recursive b st (.linkTag rel hrefAttr hrefProp imagesrcset) =
        { st with requests := st.requests ++ [⟨resolved, .resource, st.requests.length⟩] } := by
  obtain ⟨v, hv, hvne⟩ := resolveUrl_ne_empty env hparse (b := b) hhref
  have hres : (resolveUrl env b (hrefAttr.getD hrefProp)).getD (hrefAttr.getD hrefProp) = v := by
    rw [hv]
    rfl
  obtain ⟨w, hw, hwne⟩ := resolveUrl_ne_empty env hparse (b := none) hvne
  have hint : shouldInterceptLinkRel rel = true := by
    simp [shouldInterceptLinkRel, hicon]
  refine ⟨w, ?_⟩
  simp only [processDomEvent, hint, if_true]
  rw [if_neg hhref, hres]
  unfold recordUrl
  rw [hw]
  simp [hnostyle, hnopre]

/-- Witness for C10 at a concrete pure icon link. -/
theorem claim_C10_icon_recorded_not_enqueued_witness :
    ∃ resolved,
      processDomEvent stubEnv true none initState
          (.linkTag "icon" (some "https://e.com/favicon.png") "" "") =
        { initState with
          requests := initState.requests ++
            [⟨resolved, .resource, initState.requests.length⟩] } :=
  claim_C10_icon_recorded_not_enqueued stubEnv true none initState "icon"
    (some "https://e.com/favicon.png") "" "" (by decide) (by decide) (by decide)
    (by decide) (fun b0 u h => Option.noConfusion h)

end Lighterceptor
